import Mathlib

/-!
# owner_checker: OWNERS parsing and alias resolution

A shallow embedding of the pure core of `main.go` (`parseUsers`, `parseAliases`,
`removeMapFromMap`, `usersNotInOrg` and the per-repository part of `main`), together
with the pieces of the Go standard library that this code calls
(`strings.TrimSpace`, `strings.HasPrefix`, `strings.Split`, `bufio.Scanner`, ...).

Modelling conventions.

* A Go `string` is modelled by the list of its Unicode code points (`List Char`); the
  development therefore speaks about texts that are valid UTF-8.  `len(s)`, the number
  of bytes, is `utf8Len s`.
* A Go `map[string]bool` is modelled by an association list with pairwise distinct
  keys (`AList`).  The order of the entries stands for the (unspecified) iteration
  order of `range`; no statement below depends on it.  Maps are values: the maps
  passed to one function are distinct objects, as they are in `main`.
* `bufio.Scanner` with the default split function `bufio.ScanLines` and the default
  buffer is modelled by `scanLines`, including the token limit
  `bufio.MaxScanTokenSize`: `Scan` returns `false` at the first line of 65536 bytes or
  more, and `main.go` never looks at `scanner.Err()`.
-/

namespace OwnerChecker

/-! ## Go strings -/

/-- A Go string, as the list of its code points. -/
abbrev GoString := List Char

/-- Go `len(s)`: the number of bytes of the UTF-8 encoding of `s`. -/
def utf8Len (s : GoString) : Nat := (s.map Char.utf8Size).sum

/-- Go `unicode.IsSpace`: in Latin-1 the characters `\t \n \v \f \r`, space, U+0085 and
U+00A0; beyond Latin-1 the characters with the Unicode property `White_Space`. -/
def isSpace (c : Char) : Bool :=
  let r := c.toNat
  if r ≤ 0xFF then
    r == 0x09 || r == 0x0A || r == 0x0B || r == 0x0C || r == 0x0D || r == 0x20 ||
      r == 0x85 || r == 0xA0
  else
    r == 0x1680 || (0x2000 ≤ r && r ≤ 0x200A) || r == 0x2028 || r == 0x2029 ||
      r == 0x202F || r == 0x205F || r == 0x3000

/-- Go `strings.TrimSpace`: remove all leading and trailing white space. -/
def TrimSpace (s : GoString) : GoString :=
  (s.dropWhile isSpace).rdropWhile isSpace

/-- Go `strings.HasPrefix`. -/
def HasPrefix (s pre : GoString) : Bool := pre.isPrefixOf s

/-- Go `strings.TrimPrefix`: `s` without the leading `pre`, or `s` itself when `s`
does not start with `pre`. -/
def TrimPrefix (s pre : GoString) : GoString :=
  if HasPrefix s pre then s.drop pre.length else s

/-- Go `strings.HasSuffix`. -/
def HasSuffix (s suf : GoString) : Bool := suf.isSuffixOf s

/-- Go `strings.TrimSuffix`: `s` without the trailing `suf`, or `s` itself when `s`
does not end with `suf`. -/
def TrimSuffix (s suf : GoString) : GoString :=
  if HasSuffix s suf then s.take (s.length - suf.length) else s

/-- Go `strings.Contains`: `substr` occurs somewhere in `s`. -/
def Contains : GoString → GoString → Bool
  | [], substr => substr.isEmpty
  | c :: s, substr => substr.isPrefixOf (c :: s) || Contains s substr

/-- The first element of Go `strings.Split(s, sep)`, that is `strings.Split(s, sep)[0]`:
the part of `s` before the first occurrence of `sep`, all of `s` when `sep` does not
occur, and the first character of `s` when `sep` is empty. -/
def SplitFirst : GoString → GoString → GoString
  | [], _ => []
  | c :: s, sep =>
    if sep.isEmpty then [c]
    else if sep.isPrefixOf (c :: s) then []
    else c :: SplitFirst s sep

/-! ## `bufio.Scanner` -/

/-- Go `bufio.MaxScanTokenSize`, the size limit of the default scanner buffer. -/
def maxScanTokenSize : Nat := 64 * 1024

/-- The helper `dropCR` of `bufio.ScanLines`: drop one trailing `\r`. -/
def dropCR (data : GoString) : GoString :=
  if data.getLast? = some '\r' then data.dropLast else data

/-- The lines a `bufio.Scanner` over `strings.NewReader` delivers, where `cur` is the
part of the current line read so far and the second argument is the unread input.

A line ends at `\n` (or at the end of the input, where an empty rest is no line);
one trailing `\r` is dropped.  A line of `maxScanTokenSize` bytes or more does not
fit the buffer: `Scan` then fails with `ErrTooLong` and returns `false`, which ends
the `for scanner.Scan()` loop. -/
def scanFrom : GoString → GoString → List GoString
  | cur, [] =>
    if cur.isEmpty then []
    else if maxScanTokenSize ≤ utf8Len cur then []
    else [dropCR cur]
  | cur, c :: rest =>
    if c = '\n' then
      if maxScanTokenSize ≤ utf8Len cur then []
      else dropCR cur :: scanFrom [] rest
    else scanFrom (cur ++ [c]) rest

/-- The successive values of `scanner.Text()` in
`scanner := bufio.NewScanner(strings.NewReader(content)); for scanner.Scan() { ... }`. -/
def scanLines (content : GoString) : List GoString := scanFrom [] content

/-! ## Go maps -/

/-- A Go `map[string]bool`. -/
abbrev GoMap := AList (fun _ : GoString => Bool)

/-- Go `maps.Copy(dst, src)`: `for k, v := range src { dst[k] = v }`. -/
def mapsCopy (dst src : GoMap) : GoMap :=
  src.entries.foldl (fun m e => m.insert e.1 e.2) dst

/-! ## The functions of `main.go` -/

/-- The function `removeMapFromMap`: delete every key of `remove` from `keep` and
return `keep`. -/
def removeMapFromMap (remove keep : GoMap) : GoMap :=
  remove.keys.foldl (fun m k => m.erase k) keep

/-- The function `usersNotInOrg`: the keys of `ownerUsers` that are not keys of
`orgUsers`, in the order in which `range ownerUsers` visits them. -/
def usersNotInOrg (orgUsers ownerUsers : GoMap) : List GoString :=
  ownerUsers.keys.foldl
    (fun invalidUsers k =>
      if !(orgUsers.lookup k).isSome then invalidUsers ++ [k] else invalidUsers)
    []

/-- The body of the loop of `parseUsers` for one scanned line `text`. -/
def parseUsersStep (users : GoMap) (text : GoString) : GoMap :=
  let line := TrimSpace text
  if HasPrefix line ['-'] then
    let line := if Contains line ['#'] then SplitFirst line ['#'] else line
    let name := TrimSpace (TrimPrefix line ['-'])
    users.insert name true
  else users

/-- The function `parseUsers`: the entries of the scanned lines that, once trimmed,
start with `-`.  Unlike `parseAliases`, the loop does not test the name for being
empty. -/
def parseUsers (content : GoString) : GoMap :=
  (scanLines content).foldl parseUsersStep ∅

/-- The body of the loop of `parseAliases` for one scanned line `text`, acting on the
local map `aliases`. -/
def parseAliasesStep (aliases : GoMap) (text : GoString) : GoMap :=
  let line := TrimSpace text
  let line :=
    if HasSuffix line [':'] then
      if Contains line ['#'] then SplitFirst line ['#'] else line
    else line
  let aliasName := TrimSpace (TrimSuffix line [':'])
  if aliasName ≠ [] then aliases.insert aliasName true else aliases

/-- The local map `aliases` of `parseAliases` when its loop has finished. -/
def parseAliasesAccumulated (content : GoString) : GoMap :=
  (scanLines content).foldl parseAliasesStep ∅

/-- The function `parseAliases`: the loop fills the local map `aliases`, and the
function then returns a fresh empty map (`return map[string]bool{}`). -/
def parseAliases (content : GoString) : GoMap :=
  let _aliases := parseAliasesAccumulated content
  ∅

/-- The map `ownerUsers` that `main` passes to `usersNotInOrg` for one repository,
from the contents of its `OWNERS` file and of its `OWNERS_ALIASES` file (the empty
string when that file could not be read). -/
def effectiveOwners (ownerContent aliasesContent : GoString) : GoMap :=
  let aliases : GoMap := if aliasesContent ≠ [] then parseAliases aliasesContent else ∅
  let aliasUsers : GoMap := if aliasesContent ≠ [] then parseUsers aliasesContent else ∅
  let ownerUsers := parseUsers ownerContent
  let ownerUsers := removeMapFromMap aliases ownerUsers
  mapsCopy ownerUsers aliasUsers

/-- The list `invalidUsers` that `main` computes for one repository. -/
def invalidUsers (orgUsers : GoMap) (ownerContent aliasesContent : GoString) : List GoString :=
  usersNotInOrg orgUsers (effectiveOwners ownerContent aliasesContent)

/-- A map with the given keys, each mapped to `true`. -/
def mapOfKeys (ks : List GoString) : GoMap :=
  ks.foldl (fun m k => m.insert k true) ∅

/-! ## The specification's reading of a line -/

/-- The characters other than the comment marker `#`. -/
def notHash (c : Char) : Bool := c != '#'

/-- The entry of one line of an ownership or alias file in the words of the
specification (4.1): truncate the line at the first `#`; if the trimmed rest starts
with `-`, strip that `-` and the surrounding white space. -/
def specEntryOf (l : GoString) : Option GoString :=
  let t := TrimSpace (l.takeWhile notHash)
  if HasPrefix t ['-'] then some (TrimSpace (TrimPrefix t ['-'])) else none

/-- The group name defined by one line of an alias file in the words of the
specification (4.2): truncate at `#`, trim; if the line ends with `:`, strip that `:`
and the surrounding white space; an empty name is skipped. -/
def specGroupOf (l : GoString) : Option GoString :=
  let t := TrimSpace (l.takeWhile notHash)
  if HasSuffix t [':'] then
    let g := TrimSpace (TrimSuffix t [':'])
    if g ≠ [] then some g else none
  else none

/-- The lines of a text in the words of the specification: the text split on `\n`. -/
def specLines (text : GoString) : List GoString := text.splitOn '\n'

/-- The lines of a text that precede its first line of `maxScanTokenSize` bytes or
more. -/
def linesBeforeTooLong (text : GoString) : List GoString :=
  (specLines text).takeWhile (fun l => decide (utf8Len l < maxScanTokenSize))

/-- The entry that the loop body of `parseUsers` inserts for the scanned line `text`,
if any. -/
def entryOf (text : GoString) : Option GoString :=
  let line := TrimSpace text
  if HasPrefix line ['-'] then
    let line := if Contains line ['#'] then SplitFirst line ['#'] else line
    some (TrimSpace (TrimPrefix line ['-']))
  else none

/-! ## Lemmas on the string functions -/

theorem rdropWhile_append_cons_of_neg (p : Char → Bool) (a : GoString) (x : Char)
    (b : GoString) (hx : ¬ p x) :
    (a ++ x :: b).rdropWhile p = a ++ x :: b.rdropWhile p := by
  induction b using List.reverseRecOn with
  | nil => rw [List.rdropWhile_nil, List.rdropWhile_concat_neg _ _ _ hx]
  | append_singleton b y ih =>
    have e : a ++ x :: (b ++ [y]) = (a ++ x :: b) ++ [y] := by simp
    rw [e, List.rdropWhile_concat, List.rdropWhile_concat, ih]
    split <;> simp

theorem rdropWhile_cons_of_neg (p : Char → Bool) (x : Char) (b : GoString) (hx : ¬ p x) :
    (x :: b).rdropWhile p = x :: b.rdropWhile p :=
  rdropWhile_append_cons_of_neg p [] x b hx

theorem rdropWhile_append_of_pos (p : Char → Bool) (a ws : GoString)
    (h : ∀ c ∈ ws, p c) : (a ++ ws).rdropWhile p = a.rdropWhile p := by
  induction ws using List.reverseRecOn with
  | nil => simp
  | append_singleton ws y ih =>
    rw [← List.append_assoc, List.rdropWhile_concat_pos _ _ _ (h y (by simp))]
    exact ih (fun c hc => h c (by simp [hc]))

theorem isPrefixOf_single (a c : Char) (r : GoString) :
    [a].isPrefixOf (c :: r) = (a == c) := by
  simp only [List.isPrefixOf, Bool.and_true]

theorem cut_eq_takeWhile (s : GoString) :
    (if Contains s ['#'] then SplitFirst s ['#'] else s) = s.takeWhile notHash := by
  unfold notHash
  induction s with
  | nil => simp [Contains, SplitFirst]
  | cons c r ih =>
    by_cases hc : c = '#'
    · subst hc
      simp [Contains, SplitFirst, isPrefixOf_single]
    · have hc2 : ('#' == c) = false := by
        rw [beq_eq_false_iff_ne]; exact fun h => hc h.symm
      have hc3 : (c != '#') = true := by
        rw [bne_iff_ne]; exact hc
      by_cases hr : Contains r ['#'] = true
      · simp only [hr, if_true] at ih
        simp [Contains, SplitFirst, isPrefixOf_single, hc2, hr, ih, hc3]
      · simp only [hr] at ih
        simp only [Contains, SplitFirst, isPrefixOf_single, hc2, hr, Bool.or_false,
          List.takeWhile_cons, hc3, if_true]
        simpa using ih

/-- Every list either satisfies `p` throughout or splits at its first element that
does not satisfy `p`. -/
theorem split_at_first_neg (p : Char → Bool) (l : GoString) :
    (∀ c ∈ l, p c = true) ∨
      ∃ a c b, l = a ++ c :: b ∧ (∀ x ∈ a, p x = true) ∧ p c = false := by
  induction l with
  | nil => left; simp
  | cons x l ih =>
    by_cases hx : p x = true
    · rcases ih with h | ⟨a, c, b, hl, ha, hc⟩
      · left
        intro y hy
        rcases List.mem_cons.1 hy with rfl | hy
        · exact hx
        · exact h y hy
      · right
        refine ⟨x :: a, c, b, by simp [hl], ?_, hc⟩
        intro y hy
        rcases List.mem_cons.1 hy with rfl | hy
        · exact hx
        · exact ha y hy
    · right
      exact ⟨[], x, l, rfl, by simp, by simpa using hx⟩

theorem trimSpace_of_all_space (s : GoString) (h : ∀ c ∈ s, isSpace c = true) :
    TrimSpace s = [] := by
  have : s.dropWhile isSpace = [] := List.dropWhile_eq_nil_iff.2 h
  simp [TrimSpace, this]

theorem trimSpace_split (ws : GoString) (c : Char) (r : GoString)
    (hws : ∀ x ∈ ws, isSpace x = true) (hc : isSpace c = false) :
    TrimSpace (ws ++ c :: r) = c :: r.rdropWhile isSpace := by
  have hc2 : ¬ isSpace c = true := by simp [hc]
  rw [TrimSpace, List.dropWhile_append_of_pos hws, List.dropWhile_cons_of_neg hc2,
    rdropWhile_cons_of_neg _ _ _ hc2]

theorem trimSpace_rdropWhile (x : GoString) :
    TrimSpace (x.rdropWhile isSpace) = TrimSpace x := by
  rcases split_at_first_neg isSpace x with h | ⟨ws, c, r, rfl, hws, hc⟩
  · rw [List.rdropWhile_eq_nil_iff.2 h, trimSpace_of_all_space x h]
    rfl
  · have hc2 : ¬ isSpace c = true := by simp [hc]
    rw [rdropWhile_append_cons_of_neg _ _ _ _ hc2, trimSpace_split _ _ _ hws hc,
      trimSpace_split _ _ _ hws hc, List.rdropWhile_idempotent]

theorem trimSpace_append_space (x ws : GoString) (h : ∀ c ∈ ws, isSpace c = true) :
    TrimSpace (x ++ ws) = TrimSpace x := by
  rw [← trimSpace_rdropWhile (x ++ ws), rdropWhile_append_of_pos _ _ _ h,
    trimSpace_rdropWhile]

theorem takeWhile_rdropWhile_trim (r : GoString) :
    TrimSpace ((r.rdropWhile isSpace).takeWhile notHash) =
      TrimSpace (r.takeWhile notHash) := by
  rcases split_at_first_neg notHash r with h | ⟨a, c, b, rfl, ha, hc⟩
  · have h2 : ∀ c ∈ r.rdropWhile isSpace, notHash c = true :=
      fun c hc => h c ((List.rdropWhile_prefix isSpace (l := r)).subset hc)
    rw [List.takeWhile_eq_self_iff.2 h, List.takeWhile_eq_self_iff.2 h2,
      trimSpace_rdropWhile]
  · have hc1 : c = '#' := by simpa [notHash] using hc
    subst hc1
    have hs : ¬ isSpace '#' = true := by decide
    have hq : ¬ notHash '#' = true := by decide
    rw [rdropWhile_append_cons_of_neg _ _ _ _ hs, List.takeWhile_append_of_pos ha,
      List.takeWhile_append_of_pos ha, List.takeWhile_cons_of_neg hq,
      List.takeWhile_cons_of_neg hq]

theorem not_hash_of_space (x : Char) (h : isSpace x = true) : notHash x = true := by
  rw [notHash, bne_iff_ne]
  rintro rfl
  exact absurd h (by decide)

/-- The order of the code (trim, test for `-`, truncate at `#`) and the order of the
specification (truncate at `#`, trim, test for `-`) give the same entry on every line. -/
theorem entryOf_eq_specEntryOf (l : GoString) : entryOf l = specEntryOf l := by
  unfold entryOf specEntryOf
  simp only [cut_eq_takeWhile]
  rcases split_at_first_neg isSpace l with h | ⟨ws, c, r, rfl, hws, hc⟩
  · have h2 : ∀ c ∈ l.takeWhile notHash, isSpace c = true :=
      fun c hc => h c ((List.takeWhile_prefix _).subset hc)
    rw [trimSpace_of_all_space l h, trimSpace_of_all_space _ h2]
    rfl
  · have hq : ∀ x ∈ ws, notHash x = true := fun x hx =>
      not_hash_of_space x (hws x hx)
    rw [trimSpace_split _ _ _ hws hc, List.takeWhile_append_of_pos hq]
    by_cases hh : c = '#'
    · subst hh
      have hq2 : ¬ notHash '#' = true := by decide
      simp only [List.takeWhile_cons_of_neg hq2, List.append_nil,
        trimSpace_of_all_space ws hws]
      have h1 : HasPrefix ('#' :: r.rdropWhile isSpace) ['-'] = false := by
        rw [HasPrefix, isPrefixOf_single]; decide
      have h2 : HasPrefix [] ['-'] = false := rfl
      rw [h1, h2]
    · have hq2 : notHash c = true := by simpa [notHash] using hh
      simp only [List.takeWhile_cons_of_pos hq2, trimSpace_split _ _ _ hws hc]
      by_cases hd : c = '-'
      · subst hd
        have h1 : ∀ t : GoString, HasPrefix ('-' :: t) ['-'] = true := fun t => by
          rw [HasPrefix, isPrefixOf_single]; decide
        have h3 : ∀ t : GoString, TrimPrefix ('-' :: t) ['-'] = t := fun t => by
          rw [TrimPrefix, h1]; rfl
        simp only [h1, if_true, h3, takeWhile_rdropWhile_trim, trimSpace_rdropWhile]
      · have h1 : ∀ t : GoString, HasPrefix (c :: t) ['-'] = false := fun t => by
          rw [HasPrefix, isPrefixOf_single, beq_eq_false_iff_ne]
          exact fun h => hd h.symm
        simp only [h1]
        rfl

theorem entryOf_nil : entryOf [] = none := rfl

theorem trimSpace_dropCR (l : GoString) : TrimSpace (dropCR l) = TrimSpace l := by
  unfold dropCR
  split
  · rename_i h
    have e : l = l.dropLast ++ ['\r'] := (List.dropLast_append_getLast? _ h).symm
    conv_rhs => rw [e]
    rw [trimSpace_append_space]
    intro c hc
    rw [List.mem_singleton.1 hc]
    decide
  · rfl

theorem entryOf_dropCR (l : GoString) : entryOf (dropCR l) = entryOf l := by
  unfold entryOf
  rw [trimSpace_dropCR]

/-! ## Lemmas on the scanner -/

theorem scanFrom_line (cur l rest : GoString) (h : '\n' ∉ l) :
    scanFrom cur (l ++ '\n' :: rest) =
      if maxScanTokenSize ≤ utf8Len (cur ++ l) then []
      else dropCR (cur ++ l) :: scanFrom [] rest := by
  induction l generalizing cur with
  | nil => simp [scanFrom]
  | cons c l ih =>
    have hc : c ≠ '\n' := fun e => h (by simp [e])
    have hl : '\n' ∉ l := fun e => h (by simp [e])
    have e : scanFrom cur (c :: l ++ '\n' :: rest) =
        scanFrom (cur ++ [c]) (l ++ '\n' :: rest) := by
      simp only [List.cons_append, scanFrom, hc, if_false]
      rfl
    rw [e, ih _ hl]
    simp

theorem scanFrom_last (cur l : GoString) (h : '\n' ∉ l) :
    scanFrom cur l =
      if (cur ++ l).isEmpty then []
      else if maxScanTokenSize ≤ utf8Len (cur ++ l) then []
      else [dropCR (cur ++ l)] := by
  induction l generalizing cur with
  | nil => simp [scanFrom]
  | cons c l ih =>
    have hc : c ≠ '\n' := fun e => h (by simp [e])
    have hl : '\n' ∉ l := fun e => h (by simp [e])
    simp only [scanFrom, hc, if_false]
    rw [ih _ hl]
    simp

theorem splitOn_cons_newline (rest : GoString) :
    ('\n' :: rest).splitOn '\n' = [] :: rest.splitOn '\n' := by
  simp [List.splitOn, List.splitOnP_cons]

theorem splitOn_cons_other (c : Char) (rest : GoString) (hc : c ≠ '\n') :
    (c :: rest).splitOn '\n' = (rest.splitOn '\n').modifyHead (List.cons c) := by
  simp [List.splitOn, List.splitOnP_cons, hc]

theorem splitOn_line (l rest : GoString) (h : '\n' ∉ l) :
    (l ++ '\n' :: rest).splitOn '\n' = l :: rest.splitOn '\n' := by
  induction l with
  | nil => exact splitOn_cons_newline rest
  | cons c l ih =>
    have hc : c ≠ '\n' := fun e => h (by simp [e])
    have hl : '\n' ∉ l := fun e => h (by simp [e])
    rw [List.cons_append, splitOn_cons_other _ _ hc, ih hl]
    rfl

/-- What the scanner delivers and what splitting on `\n` gives differ only by an empty
last line, by trailing `\r`, and by the lines from the first too long one on: a
function on lines that ignores the first two sees the scanned lines as the lines
before the first too long one. -/
theorem filterMap_scanFrom {β : Type} (f : GoString → Option β) (h0 : f [] = none)
    (hcr : ∀ l, f (dropCR l) = f l) (cur rest : GoString) :
    (scanFrom cur rest).filterMap f =
      (((rest.splitOn '\n').modifyHead (fun x => cur ++ x)).takeWhile
        (fun l => decide (utf8Len l < maxScanTokenSize))).filterMap f := by
  induction rest generalizing cur with
  | nil =>
    simp only [scanFrom, List.splitOn_nil, List.modifyHead_cons, List.append_nil]
    by_cases hcur : cur = []
    · subst hcur
      simp [h0, List.takeWhile_cons, utf8Len, maxScanTokenSize]
    · by_cases hlen : maxScanTokenSize ≤ utf8Len cur
      · simp [hcur, hlen, List.takeWhile_cons]
      · simp [hcur, hlen, List.takeWhile_cons, List.filterMap_cons, hcr, not_le.1 hlen]
  | cons c rest ih =>
    by_cases hc : c = '\n'
    · subst hc
      rw [splitOn_cons_newline]
      simp only [scanFrom, if_true, List.modifyHead_cons, List.append_nil]
      by_cases hlen : maxScanTokenSize ≤ utf8Len cur
      · simp [hlen, List.takeWhile_cons]
      · have e := ih []
        simp only [List.nil_append] at e
        have e2 : (List.splitOn '\n' rest).modifyHead (fun x => x) = List.splitOn '\n' rest := by
          cases List.splitOn '\n' rest <;> rfl
        rw [e2] at e
        simp [hlen, List.takeWhile_cons, not_le.1 hlen, List.filterMap_cons, hcr, e]
    · rw [splitOn_cons_other c rest hc]
      simp only [scanFrom, hc, if_false, List.modifyHead_modifyHead]
      rw [ih (cur ++ [c])]
      have e : ((fun x => cur ++ [c] ++ x) : GoString → GoString) =
          (fun x => cur ++ x) ∘ List.cons c := by
        funext x; simp
      rw [e]

theorem filterMap_scanLines {β : Type} (f : GoString → Option β) (h0 : f [] = none)
    (hcr : ∀ l, f (dropCR l) = f l) (text : GoString) :
    (scanLines text).filterMap f = (linesBeforeTooLong text).filterMap f := by
  have e := filterMap_scanFrom f h0 hcr [] text
  have e2 : (List.splitOn '\n' text).modifyHead (fun x => [] ++ x) = List.splitOn '\n' text := by
    cases List.splitOn '\n' text <;> rfl
  rw [e2] at e
  exact e

/-! ## Lemmas on the maps -/

theorem mem_foldl_insert (n : GoString) (es : List (Sigma fun _ : GoString => Bool))
    (dst : GoMap) :
    n ∈ es.foldl (fun m e => m.insert e.1 e.2) dst ↔ n ∈ dst ∨ n ∈ es.keys := by
  induction es generalizing dst with
  | nil => simp
  | cons e es ih =>
    rw [List.foldl_cons, ih, AList.mem_insert, List.keys_cons, List.mem_cons]
    tauto

theorem mem_mapsCopy (n : GoString) (dst src : GoMap) :
    n ∈ mapsCopy dst src ↔ n ∈ dst ∨ n ∈ src := by
  rw [mapsCopy, mem_foldl_insert, AList.mem_keys (s := src), AList.keys]

theorem mem_foldl_erase (n : GoString) (ks : List GoString) (keep : GoMap) :
    n ∈ ks.foldl (fun m k => m.erase k) keep ↔ n ∈ keep ∧ n ∉ ks := by
  induction ks generalizing keep with
  | nil => simp
  | cons k ks ih =>
    rw [List.foldl_cons, ih, AList.mem_erase, List.mem_cons]
    tauto

theorem mem_removeMapFromMap (n : GoString) (remove keep : GoMap) :
    n ∈ removeMapFromMap remove keep ↔ n ∈ keep ∧ n ∉ remove := by
  rw [removeMapFromMap, mem_foldl_erase, AList.mem_keys (s := remove)]

theorem removeMapFromMap_empty (keep : GoMap) : removeMapFromMap ∅ keep = keep := rfl

theorem mapsCopy_empty (dst : GoMap) : mapsCopy dst ∅ = dst := rfl

theorem foldl_notInOrg (orgUsers : GoMap) (ks acc : List GoString) :
    ks.foldl
        (fun invalidUsers k =>
          if !(orgUsers.lookup k).isSome then invalidUsers ++ [k] else invalidUsers)
        acc =
      acc ++ ks.filter (fun k => !(orgUsers.lookup k).isSome) := by
  induction ks generalizing acc with
  | nil => simp
  | cons k ks ih =>
    rw [List.foldl_cons, ih, List.filter_cons]
    cases h : (orgUsers.lookup k).isSome
    · simp
    · simp

theorem usersNotInOrg_eq_filter (orgUsers ownerUsers : GoMap) :
    usersNotInOrg orgUsers ownerUsers =
      ownerUsers.keys.filter (fun k => !(orgUsers.lookup k).isSome) := by
  rw [usersNotInOrg, foldl_notInOrg, List.nil_append]

theorem mem_usersNotInOrg (n : GoString) (orgUsers ownerUsers : GoMap) :
    n ∈ usersNotInOrg orgUsers ownerUsers ↔ n ∈ ownerUsers ∧ n ∉ orgUsers := by
  rw [usersNotInOrg_eq_filter, List.mem_filter, ← AList.mem_keys,
    ← AList.lookup_isSome (s := orgUsers)]
  simp

/-! ## Lemmas on `parseUsers` -/

theorem parseUsersStep_eq (users : GoMap) (text : GoString) :
    parseUsersStep users text =
      match entryOf text with
      | some n => users.insert n true
      | none => users := by
  unfold parseUsersStep entryOf
  by_cases h : HasPrefix (TrimSpace text) ['-'] = true
  · simp only [h, if_true]
  · simp only [h]
    rfl

theorem mem_foldl_parseUsersStep (n : GoString) (lines : List GoString) (users : GoMap) :
    n ∈ lines.foldl parseUsersStep users ↔ n ∈ users ∨ n ∈ lines.filterMap entryOf := by
  induction lines generalizing users with
  | nil => simp
  | cons l lines ih =>
    rw [List.foldl_cons, ih, parseUsersStep_eq, List.filterMap_cons]
    cases h : entryOf l with
    | none => simp
    | some m =>
      simp only [AList.mem_insert, List.mem_cons]
      tauto

/-- The keys of `parseUsers text` are the entries of the lines before the first too
long line of `text`. -/
theorem mem_parseUsers (n text : GoString) :
    n ∈ parseUsers text ↔ ∃ l ∈ linesBeforeTooLong text, specEntryOf l = some n := by
  rw [parseUsers, mem_foldl_parseUsersStep,
    filterMap_scanLines entryOf entryOf_nil entryOf_dropCR, List.mem_filterMap]
  simp [entryOf_eq_specEntryOf, AList.not_mem_empty]

theorem specEntryOf_eq_some_iff (l n : GoString) :
    specEntryOf l = some n ↔
      HasPrefix (TrimSpace (l.takeWhile notHash)) ['-'] = true ∧
        n = TrimSpace (TrimPrefix (TrimSpace (l.takeWhile notHash)) ['-']) := by
  unfold specEntryOf
  by_cases h : HasPrefix (TrimSpace (l.takeWhile notHash)) ['-'] = true
  · simp [h, eq_comm]
  · simp [h]

/-! ## The Effective-Owner step and the membership check -/

/-- C5: for all maps `O` (ownership entries), `A` (alias-file entries) and `G` (alias
group names), the keys of `maps.Copy(removeMapFromMap(G, O), A)` are exactly the keys
of `O` that are not keys of `G`, together with the keys of `A`. -/
theorem effectiveOwnerStep_keys (O A G : GoMap) (n : GoString) :
    n ∈ mapsCopy (removeMapFromMap G O) A ↔ (n ∈ O ∧ n ∉ G) ∨ n ∈ A := by
  rw [mem_mapsCopy, mem_removeMapFromMap]

/-- The example of the specification for the Effective-Owner step: `O = {team-a, carol}`,
`A = {alice, bob}`, `G = {team-a}` give the keys `alice`, `bob` and `carol`. -/
theorem effectiveOwnerStep_example (n : GoString) :
    n ∈ mapsCopy
        (removeMapFromMap (mapOfKeys ["team-a".toList])
          (mapOfKeys ["team-a".toList, "carol".toList]))
        (mapOfKeys ["alice".toList, "bob".toList]) ↔
      n ∈ ["alice".toList, "bob".toList, "carol".toList] := by
  have e : (mapsCopy
        (removeMapFromMap (mapOfKeys ["team-a".toList])
          (mapOfKeys ["team-a".toList, "carol".toList]))
        (mapOfKeys ["alice".toList, "bob".toList])).keys =
      ["alice".toList, "bob".toList, "carol".toList] := by
    decide
  rw [AList.mem_keys, e]

/-- C6: `usersNotInOrg(M, E)` contains a name exactly when the name is a key of `E` and
not a key of `M`, and it contains no name twice. -/
theorem usersNotInOrg_spec (M E : GoMap) :
    (∀ n, n ∈ usersNotInOrg M E ↔ n ∈ E ∧ n ∉ M) ∧ (usersNotInOrg M E).Nodup := by
  refine ⟨fun n => mem_usersNotInOrg n M E, ?_⟩
  rw [usersNotInOrg_eq_filter]
  exact E.keys_nodup.filter _

/-- The example of the specification for the membership check: `E = {alice, dave}` and
`M = {alice, bob}` give `[dave]`. -/
theorem usersNotInOrg_example :
    usersNotInOrg (mapOfKeys ["alice".toList, "bob".toList])
        (mapOfKeys ["alice".toList, "dave".toList]) =
      ["dave".toList] := by
  decide

/-- C7, as stated, fails: with `O = {}`, `A = {team-a}` and `G = {team-a}` the name
`team-a` is a key of `G` and a key of the result of the Effective-Owner step. -/
theorem effectiveOwnerStep_keeps_alias_entry :
    "team-a".toList ∈ mapOfKeys ["team-a".toList] ∧
      "team-a".toList ∈
        mapsCopy (removeMapFromMap (mapOfKeys ["team-a".toList]) ∅)
          (mapOfKeys ["team-a".toList]) := by
  decide

/-- C7, amended: the result of the Effective-Owner step
`maps.Copy(removeMapFromMap(G, O), A)` contains no key of `G` that is not also a key
of `A`. -/
theorem effectiveOwnerStep_no_group (O A G : GoMap) (n : GoString) (hG : n ∈ G)
    (hA : n ∉ A) : n ∉ mapsCopy (removeMapFromMap G O) A := by
  rw [mem_mapsCopy, mem_removeMapFromMap]
  tauto

/-- C7, amended, at `O = {team-a, carol}`, `A = {alice, bob}`, `G = {team-a}` and the
name `team-a`. -/
theorem effectiveOwnerStep_no_group_witness :
    "team-a".toList ∈ mapOfKeys ["team-a".toList] ∧
      "team-a".toList ∉ mapOfKeys ["alice".toList, "bob".toList] ∧
      "team-a".toList ∉
        mapsCopy
          (removeMapFromMap (mapOfKeys ["team-a".toList])
            (mapOfKeys ["team-a".toList, "carol".toList]))
          (mapOfKeys ["alice".toList, "bob".toList]) :=
  ⟨by decide, by decide,
    effectiveOwnerStep_no_group (mapOfKeys ["team-a".toList, "carol".toList])
      (mapOfKeys ["alice".toList, "bob".toList]) (mapOfKeys ["team-a".toList])
      "team-a".toList (by decide) (by decide)⟩

/-- C9: when the alias-file text is empty, the Effective Owners map of the
per-repository pipeline is `parseUsers` of the ownership text, unchanged. -/
theorem effectiveOwners_empty_aliases (ownerContent : GoString) :
    effectiveOwners ownerContent [] = parseUsers ownerContent := by
  simp [effectiveOwners, removeMapFromMap_empty, mapsCopy_empty]

/-- C10: `parseAliases` returns the empty map on every text, and so the keys of the
Effective Owners map of the per-repository pipeline are the keys of `parseUsers` of
the ownership text together with the keys of `parseUsers` of the alias text. -/
theorem parseAliases_empty_and_effectiveOwners :
    (∀ text : GoString, parseAliases text = ∅) ∧
      ∀ (ownerContent aliasesContent n : GoString),
        n ∈ effectiveOwners ownerContent aliasesContent ↔
          n ∈ parseUsers ownerContent ∨ n ∈ parseUsers aliasesContent := by
  refine ⟨fun _ => rfl, fun ownerContent aliasesContent n => ?_⟩
  by_cases h : aliasesContent = []
  · subst h
    have e : parseUsers [] = ∅ := rfl
    simp [effectiveOwners, removeMapFromMap_empty, mapsCopy_empty, e,
      AList.not_mem_empty]
  · simp only [effectiveOwners, h, ne_eq, not_false_eq_true, if_true, parseAliases,
      removeMapFromMap_empty, mem_mapsCopy]

/-! ## The defects of `parseAliases` and `parseUsers` -/

/-- C1, evaluated at the end-to-end scenario of the specification: with the ownership
text `- team-a`, `- carol`, the alias text `team-a:`, `- alice`, `- bob # note` and the
members `alice`, `bob`, `carol`, the pipeline reports `team-a` as an invalid user,
although `team-a` is defined as a group by a line of the alias text and is no `-`
entry of it. -/
theorem invalidUsers_reports_group_name :
    invalidUsers (mapOfKeys ["alice".toList, "bob".toList, "carol".toList])
        "- team-a\n- carol\n".toList "team-a:\n- alice\n- bob # note\n".toList =
      ["team-a".toList] ∧
    "team-a:".toList ∈ specLines "team-a:\n- alice\n- bob # note\n".toList ∧
    specGroupOf "team-a:".toList = some "team-a".toList ∧
    "team-a".toList ∉ parseUsers "team-a:\n- alice\n- bob # note\n".toList := by
  decide

/-- C2, evaluated at the example of the specification: `parseAliases` returns the
empty map on the text `team-a:`, `- alice`, `- bob`, whose first line defines the
group `team-a`; the loop did put `team-a` into the local map that is then dropped. -/
theorem parseAliases_misses_group :
    parseAliases "team-a:\n- alice\n- bob\n".toList = ∅ ∧
    "team-a".toList ∉ parseAliases "team-a:\n- alice\n- bob\n".toList ∧
    "team-a:".toList ∈ specLines "team-a:\n- alice\n- bob\n".toList ∧
    specGroupOf "team-a:".toList = some "team-a".toList ∧
    "team-a".toList ∈ parseAliasesAccumulated "team-a:\n- alice\n- bob\n".toList :=
  ⟨rfl, by decide, by decide, by decide, by decide⟩

/-- C4, evaluated at a bare `-` line and at a line whose entry is commented out:
`parseUsers` returns a map that has the empty string as a key. -/
theorem parseUsers_has_empty_entry :
    ([] : GoString) ∈ parseUsers "-\n".toList ∧
      ([] : GoString) ∈ parseUsers "- # comment\n".toList := by
  decide

/-! ## `parseUsers` and the specification's Entry Extractor -/

theorem utf8Len_append (a b : GoString) : utf8Len (a ++ b) = utf8Len a + utf8Len b := by
  simp [utf8Len]

theorem utf8Len_replicate (k : Nat) (c : Char) :
    utf8Len (List.replicate k c) = k * c.utf8Size := by
  simp [utf8Len, List.sum_replicate]

theorem newline_not_mem_replicate (k : Nat) (c : Char) (hc : c ≠ '\n') :
    '\n' ∉ List.replicate k c :=
  fun h => hc (List.eq_of_mem_replicate h).symm

theorem takeWhile_notHash_append (l c : GoString) :
    (l ++ ['#'] ++ c).takeWhile notHash = l.takeWhile notHash := by
  induction l with
  | nil => rfl
  | cons x l ih =>
    simp only [List.cons_append, List.takeWhile_cons]
    rw [ih]

theorem parseUsers_one_line (s : GoString) (h : '\n' ∉ s)
    (hlen : utf8Len s < maxScanTokenSize) : parseUsers s = parseUsersStep ∅ s := by
  have e := scanFrom_last [] s h
  rw [List.nil_append, if_neg (not_le.2 hlen)] at e
  rw [parseUsers, scanLines, e]
  cases s with
  | nil => rfl
  | cons x s =>
    simp only [List.isEmpty_cons, Bool.false_eq_true, if_false, List.foldl_cons,
      List.foldl_nil]
    rw [parseUsersStep_eq, parseUsersStep_eq, entryOf_dropCR]

theorem parseUsers_too_long_line (cur rest : GoString) (h : '\n' ∉ cur)
    (hlen : maxScanTokenSize ≤ utf8Len cur) : parseUsers (cur ++ '\n' :: rest) = ∅ := by
  have e := scanFrom_line [] cur rest h
  rw [List.nil_append, if_pos hlen] at e
  rw [parseUsers, scanLines, e]
  rfl

theorem parseUsers_too_long_text (s : GoString) (h : '\n' ∉ s)
    (hlen : maxScanTokenSize ≤ utf8Len s) : parseUsers s = ∅ := by
  have e := scanFrom_last [] s h
  rw [List.nil_append, if_pos hlen] at e
  rw [parseUsers, scanLines, e]
  split <;> rfl

/-- C3, as stated, fails: in the text made of a line of 65536 letters `a` followed by
the line `- bob`, the line `- bob` satisfies the condition of the claim for the name
`bob`, and `bob` is no key of `parseUsers` of the text, because the scanner stops at
the first line. -/
theorem parseUsers_misses_entry_after_long_line :
    "bob".toList ≠ [] ∧
    "bob".toList ∉ parseUsers (List.replicate 65536 'a' ++ "\n- bob\n".toList) ∧
    ∃ l ∈ specLines (List.replicate 65536 'a' ++ "\n- bob\n".toList),
      HasPrefix (TrimSpace (l.takeWhile notHash)) ['-'] = true ∧
        "bob".toList = TrimSpace (TrimPrefix (TrimSpace (l.takeWhile notHash)) ['-']) := by
  have hnl : '\n' ∉ List.replicate 65536 'a' := newline_not_mem_replicate _ _ (by decide)
  have hlen : maxScanTokenSize ≤ utf8Len (List.replicate 65536 'a') := by
    rw [utf8Len_replicate]
    decide
  have e : "\n- bob\n".toList = '\n' :: "- bob\n".toList := rfl
  refine ⟨by decide, ?_, "- bob".toList, ?_, by decide, by decide⟩
  · rw [e, parseUsers_too_long_line _ _ hnl hlen]
    exact AList.not_mem_empty _
  · rw [e, specLines, splitOn_line _ _ hnl]
    exact List.mem_cons_of_mem _ (by decide)

/-- C3, amended: for every text and every non-empty string `n`, `n` is a key of
`parseUsers(text)` if and only if some line `l` of the text (split on `\n`) that comes
before the first line of 65536 bytes or more satisfies: with `t` the part of `l`
before the first `#`, the trimmed `t` starts with `-`, and `n` is the trimmed `t`
without its leading `-`, trimmed again.  (The equivalence also holds for empty `n`.) -/
theorem parseUsers_keys_spec_order (text n : GoString) (_hn : n ≠ []) :
    n ∈ parseUsers text ↔
      ∃ l ∈ linesBeforeTooLong text,
        HasPrefix (TrimSpace (l.takeWhile notHash)) ['-'] = true ∧
          n = TrimSpace (TrimPrefix (TrimSpace (l.takeWhile notHash)) ['-']) := by
  rw [mem_parseUsers]
  simp only [specEntryOf_eq_some_iff]

/-- C3, amended, at the text `- alice # reviewer` and the name `alice`. -/
theorem parseUsers_keys_spec_order_witness :
    "alice".toList ≠ [] ∧
    ("alice".toList ∈ parseUsers "- alice # reviewer\n".toList ↔
      ∃ l ∈ linesBeforeTooLong "- alice # reviewer\n".toList,
        HasPrefix (TrimSpace (l.takeWhile notHash)) ['-'] = true ∧
          "alice".toList = TrimSpace (TrimPrefix (TrimSpace (l.takeWhile notHash)) ['-'])) :=
  ⟨by decide, parseUsers_keys_spec_order _ _ (by decide)⟩

/-- C8, as stated, fails: for the line `- alice` and a comment of 65536 letters `x`,
neither of which contains a newline, `parseUsers` of the line with the comment is
empty and `parseUsers` of the line alone is not. -/
theorem parseUsers_long_comment_drops_entry :
    '\n' ∉ "- alice".toList ∧ '\n' ∉ List.replicate 65536 'x' ∧
    parseUsers ("- alice".toList ++ ['#'] ++ List.replicate 65536 'x') ≠
      parseUsers "- alice".toList := by
  have hnl : '\n' ∉ List.replicate 65536 'x' := newline_not_mem_replicate _ _ (by decide)
  refine ⟨by decide, hnl, ?_⟩
  have hnl2 : '\n' ∉ "- alice".toList ++ ['#'] ++ List.replicate 65536 'x' := by
    intro h
    rcases List.mem_append.1 h with h | h
    · exact absurd h (by decide)
    · exact hnl h
  have hlen : maxScanTokenSize ≤
      utf8Len ("- alice".toList ++ ['#'] ++ List.replicate 65536 'x') := by
    rw [utf8Len_append, utf8Len_replicate]
    have : 65536 * Char.utf8Size 'x' = maxScanTokenSize := by decide
    omega
  rw [parseUsers_too_long_text _ hnl2 hlen]
  intro h
  have hm : "alice".toList ∈ parseUsers "- alice".toList := by decide
  rw [← h] at hm
  exact AList.not_mem_empty _ hm

/-- C8, amended: for every line `l` and every string `c`, neither containing a
newline, such that `l ++ "#" ++ c` is shorter than 65536 bytes,
`parseUsers(l ++ "#" ++ c) = parseUsers(l)`. -/
theorem parseUsers_comment_irrelevant (l c : GoString) (hl : '\n' ∉ l) (hc : '\n' ∉ c)
    (hlen : utf8Len (l ++ ['#'] ++ c) < maxScanTokenSize) :
    parseUsers (l ++ ['#'] ++ c) = parseUsers l := by
  have hnl : '\n' ∉ l ++ ['#'] ++ c := by
    intro h
    rcases List.mem_append.1 h with h | h
    · rcases List.mem_append.1 h with h | h
      · exact hl h
      · exact absurd (List.mem_singleton.1 h) (by decide)
    · exact hc h
  have hlen2 : utf8Len l < maxScanTokenSize := by
    rw [utf8Len_append, utf8Len_append] at hlen
    omega
  rw [parseUsers_one_line _ hnl hlen, parseUsers_one_line _ hl hlen2, parseUsersStep_eq,
    parseUsersStep_eq, entryOf_eq_specEntryOf, entryOf_eq_specEntryOf, specEntryOf,
    specEntryOf, takeWhile_notHash_append]

/-- C8, amended, at the line `- alice ` and the comment ` reviewer`. -/
theorem parseUsers_comment_irrelevant_witness :
    '\n' ∉ "- alice ".toList ∧ '\n' ∉ " reviewer".toList ∧
    utf8Len ("- alice ".toList ++ ['#'] ++ " reviewer".toList) < maxScanTokenSize ∧
    parseUsers ("- alice ".toList ++ ['#'] ++ " reviewer".toList) =
      parseUsers "- alice ".toList :=
  ⟨by decide, by decide, by decide,
    parseUsers_comment_irrelevant _ _ (by decide) (by decide) (by decide)⟩

/-- The examples of the specification for comment stripping: `- alice # reviewer`
yields the entry `alice`, and `# - alice` yields no entry. -/
theorem parseUsers_comment_examples :
    (parseUsers "- alice # reviewer\n".toList).keys = ["alice".toList] ∧
      (parseUsers "# - alice\n".toList).keys = [] := by
  decide

end OwnerChecker
